import Mathlib

/-!
Verification development for the concurrent hash table core of the
scalable-concurrent-containers repository.

The first part embeds the per-bucket data structure of
src/hashindex/cell.rs: a cell is an optional chain of fixed-width slot
arrays (the option is none exactly when the cell has been killed), and the
operations Cell::search, CellLocker::insert and CellLocker::kill are
translated function by function.  Machine bytes are modelled as natural
numbers reduced mod 256 where the Rust code relies on u8 wrap-around.

The second part embeds the sizing and directory logic of
src/hash_table.rs: the resize capacity computation (the grow loop and the
shrink rule), the num_entries/num_slots accessors, and the directory
installation step of resize as a transition system on the chain of
directories.  Leaf functions whose defining file (cell_array.rs) is not
part of the sources are modelled from the specification and marked as such
in their doc comments.
-/

set_option autoImplicit false

namespace Scc

/-! ### Embedding of src/hashindex/cell.rs -/

/-- Slot-array width, `ARRAY_SIZE` in cell.rs. -/
def ARRAY_SIZE : Nat := 16

/-- Tag flag bit 6: the slot holds a valid entry. -/
def OCCUPIED : Nat := 64

/-- Tag flag bit 7: the slot's entry was logically removed. -/
def REMOVED : Nat := 128

/-- One slot: the u8 tag (partial hash plus flags) and the possibly
uninitialized payload, modelled as an option. -/
structure Slot (K V : Type) where
  tag : Nat
  entry : Option (K × V)
deriving DecidableEq

/-- One `DataArray`: its row of `ARRAY_SIZE` slots.  The link to the next
overflow array is represented by the position in the enclosing list. -/
structure DataArray (K V : Type) where
  slots : List (Slot K V)
deriving DecidableEq

/-- The `data` pointer of a cell: none means the cell is killed, otherwise
the primary slot array followed by the chained overflow arrays. -/
abbrev CellData (K V : Type) := Option (List (DataArray K V))

/-- A fresh all-zero `DataArray`, as built by `DataArray::new`. -/
def DataArray.new (K V : Type) : DataArray K V :=
  ⟨List.replicate ARRAY_SIZE ⟨0, none⟩⟩

/-- The default cell contents: one fresh data array, `Cell::default`. -/
def Cell.defaultData (K V : Type) : CellData K V :=
  some [DataArray.new K V]

/-- True when the cell has been killed (`Cell::killed`): the data pointer
is null. -/
def Cell.killed {K V : Type} (cd : CellData K V) : Bool :=
  cd.isNone

/-- The tag pattern used when scanning: `(partial_hash & !REMOVED) | OCCUPIED`. -/
def hashTarget (phash : Nat) : Nat :=
  ((phash % 256) &&& (255 - REMOVED)) ||| OCCUPIED

/-- The tag stored by `CellLocker::insert`: `partial_hash | OCCUPIED`. -/
def storedTag (phash : Nat) : Nat :=
  (phash % 256) ||| OCCUPIED

/-- The inner loop of `Cell::search` over one slot array. -/
def searchSlots {K V : Type} [DecidableEq K] (key : K) (tgt : Nat) :
    List (Slot K V) → Option (K × V)
  | [] => none
  | s :: rest =>
    if s.tag = tgt then
      match s.entry with
      | some e => if e.1 = key then some e else searchSlots key tgt rest
      | none => searchSlots key tgt rest
    else searchSlots key tgt rest

/-- The outer loop of `Cell::search` over the chain of data arrays. -/
def searchChain {K V : Type} [DecidableEq K] (key : K) (tgt : Nat) :
    List (DataArray K V) → Option (K × V)
  | [] => none
  | a :: rest =>
    match searchSlots key tgt a.slots with
    | some e => some e
    | none => searchChain key tgt rest

/-- `Cell::search`: walk the chain looking for a slot whose tag equals
`(partial_hash & !REMOVED) | OCCUPIED` and whose entry has the given key. -/
def Cell.search {K V : Type} [DecidableEq K] (key : K) (phash : Nat)
    (cd : CellData K V) : Option (K × V) :=
  match cd with
  | none => none
  | some arrays => searchChain key (hashTarget phash) arrays

/-- Result of `CellLocker::insert`. -/
inductive InsertResult (K V : Type) where
  | ok : InsertResult K V
  | err (kv : K × V) : InsertResult K V
deriving DecidableEq

/-- Outcome of the duplicate-and-vacancy scan inside `CellLocker::insert`. -/
inductive ScanResult where
  | dup : ScanResult
  | free (ai idx : Nat) : ScanResult
  | full : ScanResult
deriving DecidableEq

/-- The inner loop of the insert scan over one slot array: `i` is the index
of the first listed slot, `fi` the current `free_data_array_index`, and
`freeNone` records whether `free_data_array_ref` is still unset.  It returns
none when a duplicate key is found (the early `return Err`), otherwise the
updated `free_data_array_index`. -/
def scanSlots {K V : Type} [DecidableEq K] (key : K) (tgt : Nat)
    (freeNone : Bool) : List (Slot K V) → Nat → Nat → Option Nat
  | [], _, fi => some fi
  | s :: rest, i, fi =>
    if s.tag = tgt then
      match s.entry with
      | some e =>
        if e.1 = key then none else scanSlots key tgt freeNone rest (i + 1) fi
      | none => scanSlots key tgt freeNone rest (i + 1) fi
    else if s.tag = 0 ∧ freeNone = true then
      scanSlots key tgt freeNone rest (i + 1) i
    else scanSlots key tgt freeNone rest (i + 1) fi

/-- The outer loop of the insert scan over the chain: `pos` is the position
of the first listed array, `freeRef` the position recorded in
`free_data_array_ref`, `fi` the current `free_data_array_index`. -/
def scanChain {K V : Type} [DecidableEq K] (key : K) (tgt : Nat) :
    List (DataArray K V) → Nat → Option Nat → Nat → ScanResult
  | [], _, freeRef, fi =>
    match freeRef with
    | some ai => .free ai fi
    | none => .full
  | a :: rest, pos, freeRef, fi =>
    match scanSlots key tgt freeRef.isNone a.slots 0 fi with
    | none => .dup
    | some fi2 =>
      scanChain key tgt rest (pos + 1)
        (if freeRef = none ∧ fi2 ≠ ARRAY_SIZE then some pos else freeRef) fi2

/-- Overwrite slot `idx` of array `ai` with an occupied entry. -/
def writeAt {K V : Type} (arrays : List (DataArray K V)) (ai idx tag : Nat)
    (kv : K × V) : List (DataArray K V) :=
  arrays.set ai ⟨(arrays.getD ai ⟨[]⟩).slots.set idx ⟨tag, some kv⟩⟩

/-- `CellLocker::insert`, returning the Rust result together with the new
cell contents.  A killed cell is reported as an error; the fast path fills
the preferred slot `partial_hash % ARRAY_SIZE` when its tag is zero; the
scan path walks the whole chain checking for a duplicate while tracking
`free_data_array_ref` and `free_data_array_index`; when everything is full
the code hits the `[TODO] allocate a new DataArray` branch and returns the
pair back. -/
def CellLocker.insert {K V : Type} [DecidableEq K] (key : K) (value : V)
    (phash : Nat) (cd : CellData K V) : InsertResult K V × CellData K V :=
  match cd with
  | none => (.err (key, value), none)
  | some [] => (.err (key, value), some [])
  | some (a0 :: rest) =>
    if (a0.slots.getD (phash % 256 % ARRAY_SIZE) ⟨0, none⟩).tag = 0 then
      (.ok, some (writeAt (a0 :: rest) 0 (phash % 256 % ARRAY_SIZE)
        (storedTag phash) (key, value)))
    else
      match scanChain key (hashTarget phash) (a0 :: rest) 0 none ARRAY_SIZE with
      | .dup => (.err (key, value), some (a0 :: rest))
      | .free ai idx =>
        (.ok, some (writeAt (a0 :: rest) ai idx (storedTag phash) (key, value)))
      | .full => (.err (key, value), some (a0 :: rest))

/-- `CellLocker::kill`: the data pointer is swapped to null. -/
def CellLocker.kill {K V : Type} (_cd : CellData K V) : CellData K V :=
  none

/-! ### Claim-side descriptions of the slot choice (for C7) -/

/-- First vacant slot of one array in scan order, indices starting at `i`. -/
def firstVacantSlots {K V : Type} : List (Slot K V) → Nat → Option Nat
  | [], _ => none
  | s :: rest, i => if s.tag = 0 then some i else firstVacantSlots rest (i + 1)

/-- The position the C7 claim describes: the first vacant slot encountered
in scan order over the primary array and the overflow chain. -/
def firstVacantPos {K V : Type} : List (DataArray K V) → Nat → Option (Nat × Nat)
  | [], _ => none
  | a :: rest, pos =>
    match firstVacantSlots a.slots 0 with
    | some i => some (pos, i)
    | none => firstVacantPos rest (pos + 1)

/-- Last vacant slot of one array, indices starting at `i`. -/
def lastVacantSlots {K V : Type} : List (Slot K V) → Nat → Option Nat
  | [], _ => none
  | s :: rest, i =>
    match lastVacantSlots rest (i + 1) with
    | some j => some j
    | none => if s.tag = 0 then some i else none

/-- The position the code actually selects: the first array of the chain
that has a vacant slot, and within that array the last vacant index. -/
def chosenVacantPos {K V : Type} : List (DataArray K V) → Nat → Option (Nat × Nat)
  | [], _ => none
  | a :: rest, pos =>
    match lastVacantSlots a.slots 0 with
    | some i => some (pos, i)
    | none => chosenVacantPos rest (pos + 1)

/-- A slot that would make the duplicate scan return the pair back: its tag
equals the search pattern and its entry carries the key. -/
def slotMatchesKey {K V : Type} [DecidableEq K] (key : K) (tgt : Nat)
    (s : Slot K V) : Bool :=
  s.tag == tgt &&
    (match s.entry with
     | some e => e.1 == key
     | none => false)

/-- No slot of the array matches the key under the scan pattern. -/
def noMatchSlots {K V : Type} [DecidableEq K] (key : K) (tgt : Nat)
    (slots : List (Slot K V)) : Prop :=
  ∀ s ∈ slots, slotMatchesKey key tgt s = false

/-- No slot of any array of the chain matches the key. -/
def noMatchChain {K V : Type} [DecidableEq K] (key : K) (tgt : Nat)
    (arrays : List (DataArray K V)) : Prop :=
  ∀ a ∈ arrays, noMatchSlots key tgt a.slots

/-! ### Embedding of the sizing logic of src/hash_table.rs -/

/-- `1usize << (size_of::<usize>() * 8 - 1)` on a 64-bit target. -/
def maxCapacity : Nat := 2 ^ 63

/-- The doubling loop of `HashTable::resize`: double `r` while it is below
the threshold, stopping at the architectural maximum and at 32 times the
current capacity.  The fuel only bounds the iteration count; the loop
always breaks far below 70 iterations. -/
def growLoop : Nat → Nat → Nat → Nat → Nat
  | 0, _, r, _ => r
  | fuel + 1, cap, r, threshold =>
    if r < threshold then
      if r = maxCapacity then r
      else if 32 ≤ r / cap then r
      else growLoop fuel cap (r * 2) threshold
    else r

/-- Rust `usize::next_power_of_two`, iterative form: smallest power of two
that is at least `n` (and 1 for `n = 0`). -/
def nptLoop (n : Nat) : Nat → Nat → Nat
  | 0, power => power
  | fuel + 1, power => if power < n then nptLoop n fuel (power * 2) else power

/-- Rust `usize::next_power_of_two`. -/
def nextPowerOfTwo (n : Nat) : Nat := nptLoop n 70 1

/-- The `new_capacity` computation of `HashTable::resize`: grow when the
estimate reaches `(capacity / 8) * 7`, shrink to
`next_power_of_two(estimate).max(minimum_capacity)` when the estimate is at
most `capacity / 16`, otherwise keep the capacity. -/
def newCapacity (cap est minCap : Nat) : Nat :=
  if (cap / 8) * 7 ≤ est then
    if cap = maxCapacity then cap
    else growLoop 70 cap cap ((est / 8) * 15)
  else if est ≤ cap / 16 then
    max (nextPowerOfTwo est) minCap
  else cap

/-- The grow rule exactly as claim C5 words it: keep doubling while the
capacity is below 15/8 of the estimate as an exact rational comparison,
with the same early stops as the code. -/
def claimGrowLoop : Nat → Nat → Nat → Nat → Nat
  | 0, _, r, _ => r
  | fuel + 1, cap, r, est =>
    if 8 * r < 15 * est then
      if r = maxCapacity then r
      else if 32 ≤ r / cap then r
      else claimGrowLoop fuel cap (r * 2) est
    else r

/-- The grow branch under the C5 claim's reading. -/
def claimGrowCapacity (cap est : Nat) : Nat :=
  if cap = maxCapacity then cap else claimGrowLoop 70 cap cap est

/-! ### Embedding of the directory accessors of src/hash_table.rs -/

/-- A directory (cell array) abstracted to what `num_entries`/`num_slots`
read from it: the per-cell entry counts and the cell width `N`. -/
structure CellArrayM where
  cellCounts : List Nat
  cellSize : Nat
deriving DecidableEq

/-- Modelled from the spec: `CellArray::num_entries` is the logical slot
capacity `num_cells * N` (spec section 3); cell_array.rs itself is not among
the sources. -/
def CellArrayM.capacity (a : CellArrayM) : Nat :=
  a.cellCounts.length * a.cellSize

/-- The summation loop `for i in 0..num_cells { num += cell(i).num_entries() }`
of `HashTable::num_entries`; the per-cell `Cell::num_entries()` value is
modelled from the spec as the count stored in `cellCounts`. -/
def CellArrayM.entrySum (a : CellArrayM) : Nat :=
  (List.range a.cellCounts.length).foldl
    (fun s i => s + a.cellCounts.getD i 0) 0

/-- The table root as seen by `num_entries`/`num_slots`: the current
directory and the optional predecessor. -/
structure HashTableM where
  current : CellArrayM
  old : Option CellArrayM
deriving DecidableEq

/-- `HashTable::num_entries`: sums the current directory's cells and, when a
predecessor directory exists, its cells as well. -/
def numEntries (t : HashTableM) : Nat :=
  match t.old with
  | some o => t.current.entrySum + o.entrySum
  | none => t.current.entrySum

/-- `HashTable::num_slots`: returns the capacity of the current directory. -/
def numSlots (t : HashTableM) : Nat :=
  t.current.capacity

/-! ### The directory chain transition system of resize (for C8) -/

/-- One resize installation attempt on the chain of directories (head =
current, labelled by capacities): `if !old_array.is_null() continue` means
nothing is installed while a predecessor exists; otherwise the new directory
is installed with the old chain as its predecessor. -/
def resizeInstall (newCap : Nat) (chain : List Nat) : List Nat :=
  if chain.tail = [] then newCap :: chain else chain

/-- Modelled from the spec: the completion step of `partial_rehash`
(cell_array.rs is not among the sources) swaps the fully drained predecessor
pointer to null, dropping everything behind the current directory. -/
def finishRehash (chain : List Nat) : List Nat :=
  match chain with
  | c :: _ :: _ => [c]
  | l => l

/-- Directory chains reachable from a fresh table through resize
installations and rehash completions. -/
inductive ReachableChain : List Nat → Prop where
  | init (c : Nat) : ReachableChain [c]
  | resize (n : Nat) {s : List Nat} :
      ReachableChain s → ReachableChain (resizeInstall n s)
  | rehash {s : List Nat} : ReachableChain s → ReachableChain (finishRehash s)

/-! ### Concrete states used by the counterexamples -/

/-- The cell contents after inserting key 99 with partial hash 16 into a
fresh cell: the preferred slot 0 holds tag 80. -/
def c7wa : DataArray Nat Nat :=
  ⟨⟨80, some (99, 0)⟩ :: List.replicate 15 ⟨0, none⟩⟩

/-- A chain of one slot array completely occupied by the keys 0..15. -/
def c3arrays : List (DataArray Nat Nat) :=
  [⟨(List.range 16).map (fun i => ⟨i ||| 64, some (i, 0)⟩)⟩]

/-- A cell whose single slot array is completely occupied by the keys
0..15 (all slots in use, no overflow array). -/
def c3full : CellData Nat Nat :=
  some c3arrays

/-- Cell contents after a successful insert of (0, 1) with partial hash 128
into a fresh cell. -/
def c2state1 : CellData Nat Nat :=
  (CellLocker.insert 0 (1 : Nat) 128 (Cell.defaultData Nat Nat)).2

/-- Cell contents after a successful insert of (0, 0) with partial hash 128
into a fresh cell. -/
def c1state : CellData Nat Nat :=
  (CellLocker.insert 0 (0 : Nat) 128 (Cell.defaultData Nat Nat)).2

/-- A table state with a predecessor directory present: current directory
of one cell (3 entries), predecessor of two cells (2 and 1 entries), cell
width 16. -/
def c4table : HashTableM :=
  ⟨⟨[3], 16⟩, some ⟨[2, 1], 16⟩⟩

instance {K V : Type} [DecidableEq K] (key : K) (tgt : Nat)
    (slots : List (Slot K V)) : Decidable (noMatchSlots key tgt slots) := by
  unfold noMatchSlots; infer_instance

instance {K V : Type} [DecidableEq K] (key : K) (tgt : Nat)
    (arrays : List (DataArray K V)) : Decidable (noMatchChain key tgt arrays) := by
  unfold noMatchChain; infer_instance

/-! ### Helper lemmas -/

theorem le_growLoop (t : Nat) :
    ∀ (fuel cap r : Nat), r ≤ growLoop fuel cap r t := by
  intro fuel
  induction fuel with
  | zero => intro cap r; exact le_refl r
  | succ fuel ih =>
    intro cap r
    simp only [growLoop]
    by_cases h1 : r < t
    · rw [if_pos h1]
      by_cases h2 : r = maxCapacity
      · rw [if_pos h2]
      · rw [if_neg h2]
        by_cases h3 : 32 ≤ r / cap
        · rw [if_pos h3]
        · rw [if_neg h3]
          exact le_trans (by omega) (ih cap (r * 2))
    · rw [if_neg h1]

theorem growLoop_charact (j t : Nat) :
    ∀ fuel k, 2 ^ k ≤ 32 → 6 ≤ fuel + k → 2 ^ j * 2 ^ k ≤ maxCapacity →
    (k = 0 ∨ 2 ^ j * 2 ^ k / 2 < t) →
    ∃ m, growLoop fuel (2 ^ j) (2 ^ j * 2 ^ k) t = 2 ^ j * 2 ^ m ∧ k ≤ m ∧
      2 ^ m ≤ 32 ∧ 2 ^ j * 2 ^ m ≤ maxCapacity ∧
      (2 ^ j * 2 ^ m < t → 2 ^ m = 32 ∨ 2 ^ j * 2 ^ m = maxCapacity) ∧
      (0 < m → 2 ^ j * 2 ^ m / 2 < t) := by
  intro fuel
  induction fuel with
  | zero =>
    intro k h32 h6 _ _
    exfalso
    have h64 : (2 : Nat) ^ 6 ≤ 2 ^ k := Nat.pow_le_pow_right (by omega) (by omega)
    norm_num at h64
    omega
  | succ fuel ih =>
    intro k h32 h6 hmax hentry
    simp only [growLoop]
    by_cases hrt : 2 ^ j * 2 ^ k < t
    · rw [if_pos hrt]
      by_cases hmx : 2 ^ j * 2 ^ k = maxCapacity
      · rw [if_pos hmx]
        refine ⟨k, rfl, le_refl k, h32, hmax, fun _ => Or.inr hmx, fun hk => ?_⟩
        rcases hentry with h0 | h1
        · omega
        · exact h1
      · rw [if_neg hmx]
        have hdiv : 2 ^ j * 2 ^ k / 2 ^ j = 2 ^ k :=
          Nat.mul_div_cancel_left (2 ^ k) (Nat.pos_pow_of_pos j (by omega))
        by_cases hrat : 32 ≤ 2 ^ j * 2 ^ k / 2 ^ j
        · rw [if_pos hrat]
          rw [hdiv] at hrat
          have h32eq : (2 : Nat) ^ k = 32 := le_antisymm h32 hrat
          refine ⟨k, rfl, le_refl k, h32, hmax, fun _ => Or.inl h32eq, fun hk => ?_⟩
          rcases hentry with h0 | h1
          · exfalso; rw [h0] at h32eq; norm_num at h32eq
          · exact h1
        · rw [if_neg hrat]
          rw [hdiv] at hrat
          have hklt : (2 : Nat) ^ k < 32 := by omega
          have hk4 : k ≤ 4 := by
            by_contra hk5
            have : (2 : Nat) ^ 5 ≤ 2 ^ k := Nat.pow_le_pow_right (by omega) (by omega)
            norm_num at this
            omega
          have hr2 : 2 ^ j * 2 ^ k * 2 = 2 ^ j * 2 ^ (k + 1) := by
            rw [pow_succ, Nat.mul_assoc]
          rw [hr2]
          have hltmax : 2 ^ j * 2 ^ k < maxCapacity := lt_of_le_of_ne hmax hmx
          have hjk : (2 : Nat) ^ (j + k) < 2 ^ 63 := by
            rw [pow_add]; exact hltmax
          have hjk63 : j + k < 63 := by
            exact (Nat.pow_lt_pow_iff_right (by omega)).mp hjk
          have hmax2 : 2 ^ j * 2 ^ (k + 1) ≤ maxCapacity := by
            rw [← pow_add]
            exact Nat.pow_le_pow_right (by omega) (by omega)
          have hnew32 : (2 : Nat) ^ (k + 1) ≤ 32 := by
            have : (2 : Nat) ^ (k + 1) ≤ 2 ^ 5 := Nat.pow_le_pow_right (by omega) (by omega)
            norm_num at this
            omega
          have hentry2 : k + 1 = 0 ∨ 2 ^ j * 2 ^ (k + 1) / 2 < t := by
            refine Or.inr ?_
            have : 2 ^ j * 2 ^ (k + 1) / 2 = 2 ^ j * 2 ^ k := by
              rw [← hr2]
              exact Nat.mul_div_cancel (2 ^ j * 2 ^ k) (by omega)
            rw [this]
            exact hrt
          obtain ⟨m, hm1, hm2, hm3, hm4, hm5, hm6⟩ :=
            ih (k + 1) hnew32 (by omega) hmax2 hentry2
          exact ⟨m, hm1, by omega, hm3, hm4, hm5, hm6⟩
    · rw [if_neg hrt]
      refine ⟨k, rfl, le_refl k, h32, hmax, fun h => absurd h hrt, fun hk => ?_⟩
      rcases hentry with h0 | h1
      · omega
      · exact h1

theorem nptLoop_le_pow (n m : Nat) (hn : n ≤ 2 ^ m) :
    ∀ fuel i, i ≤ m → m - i ≤ fuel → nptLoop n fuel (2 ^ i) ≤ 2 ^ m := by
  intro fuel
  induction fuel with
  | zero =>
    intro i h1 h2
    have : i = m := by omega
    subst this
    simp [nptLoop]
  | succ fuel ih =>
    intro i h1 h2
    simp only [nptLoop]
    by_cases h : 2 ^ i < n
    · rw [if_pos h]
      have hi : i < m := by
        have := lt_of_lt_of_le h hn
        exact (Nat.pow_lt_pow_iff_right (by omega)).mp this
      have : (2 : Nat) ^ i * 2 = 2 ^ (i + 1) := by rw [pow_succ]
      rw [this]
      exact ih (i + 1) (by omega) (by omega)
    · rw [if_neg h]
      exact Nat.pow_le_pow_right (by omega) h1

theorem nextPowerOfTwo_le_pow (n m : Nat) (hn : n ≤ 2 ^ m) (hm : m ≤ 70) :
    nextPowerOfTwo n ≤ 2 ^ m := by
  have h := nptLoop_le_pow n m hn 70 0 (by omega) (by omega)
  simpa [nextPowerOfTwo] using h

theorem foldl_add_map (f : Nat → Nat) :
    ∀ (l : List Nat) (acc : Nat),
      l.foldl (fun s i => s + f i) acc = acc + (l.map f).sum := by
  intro l
  induction l with
  | nil => intro acc; simp
  | cons a tl ih =>
    intro acc
    simp only [List.foldl_cons, List.map_cons, List.sum_cons]
    rw [ih (acc + f a)]
    omega

theorem map_getD_range :
    ∀ l : List Nat, (List.range l.length).map (fun i => l.getD i 0) = l := by
  intro l
  induction l with
  | nil => simp
  | cons a tl ih =>
    rw [List.length_cons, List.range_succ_eq_map, List.map_cons, List.map_map]
    simp only [List.getD_cons_zero]
    have h : ((fun i => (a :: tl).getD i 0) ∘ Nat.succ) = (fun i => tl.getD i 0) := by
      funext i
      simp [List.getD_cons_succ]
    rw [h, ih]

theorem entrySum_eq_sum (a : CellArrayM) : a.entrySum = a.cellCounts.sum := by
  unfold CellArrayM.entrySum
  rw [foldl_add_map (fun i => a.cellCounts.getD i 0) (List.range a.cellCounts.length) 0]
  rw [map_getD_range a.cellCounts]
  omega

theorem hashTarget_ne_zero (phash : Nat) : hashTarget phash ≠ 0 := by
  intro h
  have h6 : (hashTarget phash).testBit 6 = true := by
    unfold hashTarget OCCUPIED REMOVED
    rw [Nat.testBit_lor]
    have h64 : Nat.testBit 64 6 = true := by decide
    rw [h64]
    simp
  rw [h] at h6
  simp [Nat.zero_testBit] at h6

theorem scanSlots_false {K V : Type} [DecidableEq K] (key : K) (tgt : Nat) :
    ∀ (slots : List (Slot K V)), noMatchSlots key tgt slots →
    ∀ i fi, scanSlots key tgt false slots i fi = some fi := by
  intro slots
  induction slots with
  | nil => intro _ i fi; rfl
  | cons s rest ih =>
    intro hnm i fi
    have hs : slotMatchesKey key tgt s = false := hnm s (by simp)
    have hrest : noMatchSlots key tgt rest := fun x hx => hnm x (by simp [hx])
    simp only [scanSlots]
    by_cases ht : s.tag = tgt
    · rw [if_pos ht]
      cases he : s.entry with
      | none => exact ih hrest (i + 1) fi
      | some e =>
        have hek : ¬ e.1 = key := by
          simp [slotMatchesKey, ht, he] at hs
          exact hs
        have hgoal : (if e.1 = key then (none : Option Nat)
            else scanSlots key tgt false rest (i + 1) fi) = some fi := by
          rw [if_neg hek]
          exact ih hrest (i + 1) fi
        exact hgoal
    · rw [if_neg ht]
      rw [if_neg (by simp)]
      exact ih hrest (i + 1) fi

theorem scanSlots_true {K V : Type} [DecidableEq K] (key : K) (tgt : Nat)
    (htgt : tgt ≠ 0) :
    ∀ (slots : List (Slot K V)), noMatchSlots key tgt slots →
    ∀ i fi, scanSlots key tgt true slots i fi =
      some ((lastVacantSlots slots i).getD fi) := by
  intro slots
  induction slots with
  | nil => intro _ i fi; rfl
  | cons s rest ih =>
    intro hnm i fi
    have hs : slotMatchesKey key tgt s = false := hnm s (by simp)
    have hrest : noMatchSlots key tgt rest := fun x hx => hnm x (by simp [hx])
    simp only [scanSlots]
    by_cases ht : s.tag = tgt
    · rw [if_pos ht]
      have hne0 : ¬ s.tag = 0 := by rw [ht]; exact htgt
      have hlv : lastVacantSlots (s :: rest) i = lastVacantSlots rest (i + 1) := by
        simp only [lastVacantSlots]
        cases hx : lastVacantSlots rest (i + 1) with
        | some j => rfl
        | none => rw [if_neg hne0]
      cases he : s.entry with
      | none => rw [ih hrest (i + 1) fi, hlv]
      | some e =>
        have hek : ¬ e.1 = key := by
          simp [slotMatchesKey, ht, he] at hs
          exact hs
        have hgoal : (if e.1 = key then (none : Option Nat)
            else scanSlots key tgt true rest (i + 1) fi) =
            some ((lastVacantSlots (s :: rest) i).getD fi) := by
          rw [if_neg hek, ih hrest (i + 1) fi, hlv]
        exact hgoal
    · rw [if_neg ht]
      by_cases h0 : s.tag = 0
      · have hlv : lastVacantSlots (s :: rest) i =
            some ((lastVacantSlots rest (i + 1)).getD i) := by
          simp only [lastVacantSlots]
          cases hx : lastVacantSlots rest (i + 1) with
          | some j => rfl
          | none => rw [if_pos h0]; rfl
        have hrec := ih hrest (i + 1) i
        simp [h0, hrec, hlv]
      · rw [if_neg (fun hc => h0 hc.1)]
        rw [ih hrest (i + 1) fi]
        have hlv : lastVacantSlots (s :: rest) i = lastVacantSlots rest (i + 1) := by
          simp only [lastVacantSlots]
          cases hx : lastVacantSlots rest (i + 1) with
          | some j => rfl
          | none => rw [if_neg h0]
        rw [hlv]

theorem lastVacantSlots_lt {K V : Type} :
    ∀ (slots : List (Slot K V)) (i j : Nat),
      lastVacantSlots slots i = some j → j < i + slots.length := by
  intro slots
  induction slots with
  | nil => intro i j h; simp [lastVacantSlots] at h
  | cons s rest ih =>
    intro i j h
    simp only [lastVacantSlots] at h
    cases hx : lastVacantSlots rest (i + 1) with
    | some j2 =>
      rw [hx] at h
      have hj : j2 = j := by injection h
      have := ih (i + 1) j2 hx
      simp only [List.length_cons]
      omega
    | none =>
      rw [hx] at h
      by_cases h0 : s.tag = 0
      · rw [if_pos h0] at h
        have hj : i = j := by injection h
        simp only [List.length_cons]
        omega
      · rw [if_neg h0] at h
        simp at h

theorem scanChain_some {K V : Type} [DecidableEq K] (key : K) (tgt : Nat) :
    ∀ (arrays : List (DataArray K V)), noMatchChain key tgt arrays →
    ∀ pos ai fi, scanChain key tgt arrays pos (some ai) fi = .free ai fi := by
  intro arrays
  induction arrays with
  | nil => intro _ pos ai fi; rfl
  | cons a rest ih =>
    intro hnm pos ai fi
    have ha : noMatchSlots key tgt a.slots := hnm a (by simp)
    have hrest : noMatchChain key tgt rest := fun x hx => hnm x (by simp [hx])
    simp only [scanChain, Option.isNone_some]
    rw [scanSlots_false key tgt a.slots ha 0 fi]
    have hrec := ih hrest (pos + 1) ai fi
    simp [hrec]

theorem scanChain_none {K V : Type} [DecidableEq K] (key : K) (tgt : Nat)
    (htgt : tgt ≠ 0) :
    ∀ (arrays : List (DataArray K V)), noMatchChain key tgt arrays →
    (∀ a ∈ arrays, a.slots.length = ARRAY_SIZE) →
    ∀ pos, scanChain key tgt arrays pos none ARRAY_SIZE =
      (match chosenVacantPos arrays pos with
       | some (ai, idx) => ScanResult.free ai idx
       | none => ScanResult.full) := by
  intro arrays
  induction arrays with
  | nil => intro _ _ pos; rfl
  | cons a rest ih =>
    intro hnm hw pos
    have ha : noMatchSlots key tgt a.slots := hnm a (by simp)
    have hrest : noMatchChain key tgt rest := fun x hx => hnm x (by simp [hx])
    have hwrest : ∀ x ∈ rest, x.slots.length = ARRAY_SIZE :=
      fun x hx => hw x (by simp [hx])
    simp only [scanChain, Option.isNone_none]
    rw [scanSlots_true key tgt htgt a.slots ha 0 ARRAY_SIZE]
    cases hlv : lastVacantSlots a.slots 0 with
    | some idx =>
      have hidx : idx < ARRAY_SIZE := by
        have hlt := lastVacantSlots_lt a.slots 0 idx hlv
        rw [hw a (by simp)] at hlt
        omega
      have hne : idx ≠ ARRAY_SIZE := by omega
      have hsome := scanChain_some key tgt rest hrest (pos + 1) pos idx
      simp [hlv, hne, hsome, chosenVacantPos]
    | none =>
      have hih := ih hrest hwrest (pos + 1)
      simp [hlv, hih, chosenVacantPos]

/-! ### Claim theorems -/

/-- C1: the single-threaded round trip fails on the code for partial hashes
with the REMOVED bit set.  On a live (non-killed) fresh cell,
CellLocker::insert(0, 0, 128) succeeds, yet Cell::search(0, 128) returns
none instead of the inserted entry: insert stores the tag 128 | 64 = 192
without masking the REMOVED bit, while search looks for (128 & 127) | 64 =
64. -/
theorem c1_roundtrip_fails_at_hash128 :
    Cell.killed (Cell.defaultData Nat Nat) = false ∧
    (CellLocker.insert 0 (0 : Nat) 128 (Cell.defaultData Nat Nat)).1 = InsertResult.ok ∧
    Cell.search 0 128 c1state = none := by decide

/-- C2: duplicate detection fails on the code for partial hashes with the
REMOVED bit set.  After a successful insert of (0, 1) with partial hash 128,
a second insert of (0, 2) with the same partial hash returns Ok instead of
Err((0, 2)), mutates the cell, and a subsequent search no longer finds any
value for the key. -/
theorem c2_duplicate_insert_succeeds_at_hash128 :
    (CellLocker.insert 0 (1 : Nat) 128 (Cell.defaultData Nat Nat)).1 = InsertResult.ok ∧
    (CellLocker.insert 0 (2 : Nat) 128 c2state1).1 = InsertResult.ok ∧
    (CellLocker.insert 0 (2 : Nat) 128 c2state1).1 ≠ InsertResult.err (0, 2) ∧
    (CellLocker.insert 0 (2 : Nat) 128 c2state1).2 ≠ c2state1 ∧
    Cell.search 0 128 (CellLocker.insert 0 (2 : Nat) 128 c2state1).2 = none := by decide

/-- C3: when the key is absent and every slot of the cell's only slot array
is occupied, CellLocker::insert does not allocate a new overflow array: it
returns Err((k, v)) at the `[TODO] allocate a new DataArray` branch and
leaves the cell unchanged. -/
theorem c3_full_cell_insert_returns_err :
    Cell.search 100 0 c3full = none ∧
    firstVacantPos c3arrays 0 = none ∧
    (CellLocker.insert 100 (0 : Nat) 0 c3full).1 = InsertResult.err (100, 0) ∧
    (CellLocker.insert 100 (0 : Nat) 0 c3full).2 = c3full := by decide

/-- C4 counterexample: with a predecessor directory present, num_slots
returns only the current directory's capacity (16), not the sum over both
directories (48), while num_entries does sum over both. -/
theorem c4_num_slots_counterexample :
    c4table.old = some ⟨[2, 1], 16⟩ ∧
    numEntries c4table =
      c4table.current.entrySum + CellArrayM.entrySum ⟨[2, 1], 16⟩ ∧
    numSlots c4table = 16 ∧
    c4table.current.capacity + CellArrayM.capacity ⟨[2, 1], 16⟩ = 48 ∧
    numSlots c4table ≠
      c4table.current.capacity + CellArrayM.capacity ⟨[2, 1], 16⟩ := by decide

/-- C4 (amended): when a predecessor directory exists, num_entries returns
the sum of the entry counts of the current and predecessor directories,
while num_slots returns the slot capacity (num_cells * N) of the current
directory only. -/
theorem c4_amended_sums (t : HashTableM) (o : CellArrayM) (h : t.old = some o) :
    numEntries t = t.current.cellCounts.sum + o.cellCounts.sum ∧
    numSlots t = t.current.cellCounts.length * t.current.cellSize := by
  constructor
  · simp [numEntries, h, entrySum_eq_sum]
  · rfl

/-- C4 witness: the amended statement evaluated on a concrete table with a
predecessor directory. -/
theorem c4_amended_sums_witness :
    c4table.old = some ⟨[2, 1], 16⟩ ∧
    (numEntries c4table =
        c4table.current.cellCounts.sum + ((⟨[2, 1], 16⟩ : CellArrayM)).cellCounts.sum) ∧
    numSlots c4table = c4table.current.cellCounts.length * c4table.current.cellSize := by
  refine ⟨rfl, ?_, ?_⟩
  · exact (c4_amended_sums c4table ⟨[2, 1], 16⟩ rfl).1
  · exact (c4_amended_sums c4table ⟨[2, 1], 16⟩ rfl).2

/-- C5 counterexample: at capacity 8 and estimate 7 (which satisfies the 7/8
grow trigger) the code computes new capacity 8, while doubling until the
capacity is at least 15/8 of the estimate in the exact rational sense would
compute 16: the code's threshold is (estimate / 8) * 15 with integer
division, which is 0 here. -/
theorem c5_exact_threshold_counterexample :
    7 * 8 ≤ 8 * 7 ∧ (8 : Nat) = 2 ^ 3 ∧
    newCapacity 8 7 64 = 8 ∧ claimGrowCapacity 8 7 = 16 ∧
    newCapacity 8 7 64 ≠ claimGrowCapacity 8 7 := by decide

/-- C5 (amended): for every power-of-two capacity within the architectural
maximum and estimate at least 7/8 of the capacity, resize computes the new
capacity by repeatedly doubling the current capacity until it is at least
15 * (estimate / 8) (integer division), stopping early so that the new
capacity never exceeds 32 times the current capacity and never exceeds
1 << 63; the result is always the capacity times a power of two, and when
the loop doubled at all, the value before the last doubling was still below
the threshold. -/
theorem c5_amended_grow (cap est minCap j : Nat) (hj : cap = 2 ^ j)
    (hmax : cap ≤ maxCapacity) (htrig : 7 * cap ≤ 8 * est) :
    cap ≤ newCapacity cap est minCap ∧
    newCapacity cap est minCap ≤ 32 * cap ∧
    newCapacity cap est minCap ≤ maxCapacity ∧
    (∃ k, newCapacity cap est minCap = cap * 2 ^ k) ∧
    (newCapacity cap est minCap < 15 * (est / 8) →
      newCapacity cap est minCap = 32 * cap ∨
        newCapacity cap est minCap = maxCapacity) ∧
    (cap < newCapacity cap est minCap →
      newCapacity cap est minCap / 2 < 15 * (est / 8)) := by
  have hbr : (cap / 8) * 7 ≤ est := by
    have h1 : (cap / 8) * 7 * 8 ≤ 7 * cap := by
      have hd := Nat.div_mul_le_self cap 8
      calc (cap / 8) * 7 * 8 = (cap / 8) * 8 * 7 := by ring
        _ ≤ cap * 7 := Nat.mul_le_mul_right 7 hd
        _ = 7 * cap := by ring
    have h2 : (cap / 8) * 7 ≤ (7 * cap) / 8 := (Nat.le_div_iff_mul_le (by omega)).mpr h1
    have h3 : (7 * cap) / 8 ≤ (8 * est) / 8 := Nat.div_le_div_right htrig
    have h4 : (8 * est) / 8 = est := by omega
    omega
  unfold newCapacity
  rw [if_pos hbr]
  by_cases hcm : cap = maxCapacity
  · rw [if_pos hcm]
    refine ⟨le_refl cap, by omega, hmax, ⟨0, by simp⟩, fun _ => Or.inr hcm,
      fun h => absurd h (lt_irrefl cap)⟩
  · rw [if_neg hcm]
    subst hj
    obtain ⟨m, hm1, _, hm3, hm4, hm5, hm6⟩ :=
      growLoop_charact j ((est / 8) * 15) 70 0 (by norm_num) (by omega)
        (by simpa using hmax) (Or.inl rfl)
    rw [show (2 : Nat) ^ j * 2 ^ 0 = 2 ^ j by simp] at hm1
    rw [hm1]
    have hone : 1 ≤ (2 : Nat) ^ m := Nat.one_le_two_pow
    refine ⟨?_, ?_, hm4, ⟨m, rfl⟩, ?_, ?_⟩
    · have h5 := Nat.mul_le_mul_left (2 ^ j) hone
      simpa using h5
    · rw [mul_comm 32 (2 ^ j)]
      exact Nat.mul_le_mul_left (2 ^ j) hm3
    · intro h
      have h6 : 2 ^ j * 2 ^ m < (est / 8) * 15 := by
        rw [mul_comm ((est : Nat) / 8) 15]
        exact h
      rcases hm5 h6 with h32 | hmx2
      · exact Or.inl (by rw [h32, mul_comm])
      · exact Or.inr hmx2
    · intro h
      have h7 : 2 ^ j * 1 < 2 ^ j * 2 ^ m := by simpa using h
      have h8 : (1 : Nat) < 2 ^ m := lt_of_mul_lt_mul_left h7 (Nat.zero_le _)
      have h9 : 0 < m := by
        by_contra h0
        push_neg at h0
        have hm0 : m = 0 := by omega
        rw [hm0] at h8
        norm_num at h8
      have h10 := hm6 h9
      rw [mul_comm 15 ((est : Nat) / 8)]
      exact h10

/-- C5 witness: the amended grow rule applied at capacity 8, estimate 7,
minimum capacity 64. -/
theorem c5_amended_grow_witness :
    (8 : Nat) = 2 ^ 3 ∧ (8 : Nat) ≤ maxCapacity ∧ 7 * 8 ≤ 8 * 7 ∧
    (8 ≤ newCapacity 8 7 64 ∧
      newCapacity 8 7 64 ≤ 32 * 8 ∧
      newCapacity 8 7 64 ≤ maxCapacity ∧
      (∃ k, newCapacity 8 7 64 = 8 * 2 ^ k) ∧
      (newCapacity 8 7 64 < 15 * (7 / 8) →
        newCapacity 8 7 64 = 32 * 8 ∨ newCapacity 8 7 64 = maxCapacity) ∧
      (8 < newCapacity 8 7 64 → newCapacity 8 7 64 / 2 < 15 * (7 / 8))) :=
  ⟨by norm_num, by norm_num [maxCapacity], by norm_num,
    c5_amended_grow 8 7 64 3 (by norm_num) (by norm_num [maxCapacity]) (by norm_num)⟩

/-- C6: for a power-of-two capacity of at least one cell (16 slots) within
the architectural maximum and a minimum capacity not exceeding it, resize
shrinks (computes a smaller capacity) exactly when the estimated entry
count is at most 1/16 of the capacity and the capacity exceeds the minimum
capacity, and in that case the new capacity is next_power_of_two(estimate)
clamped below by the minimum capacity. -/
theorem c6_shrink_iff (cap est minCap j : Nat) (hj : cap = 2 ^ j)
    (h16 : 16 ≤ cap) (hcapmax : cap ≤ maxCapacity) (hminle : minCap ≤ cap) :
    (newCapacity cap est minCap < cap ↔ 16 * est ≤ cap ∧ minCap < cap) ∧
    (16 * est ≤ cap ∧ minCap < cap →
      newCapacity cap est minCap = max (nextPowerOfTwo est) minCap) := by
  have hj4 : 4 ≤ j := by
    by_contra hlt
    push_neg at hlt
    have hle : (2 : Nat) ^ j ≤ 2 ^ 3 := Nat.pow_le_pow_right (by omega) (by omega)
    norm_num at hle
    omega
  have hj63 : j ≤ 63 := by
    rw [hj] at hcapmax
    exact (Nat.pow_le_pow_iff_right (by omega)).mp hcapmax
  have hc16 : cap / 16 = 2 ^ (j - 4) := by
    rw [hj, show (16 : Nat) = 2 ^ 4 by norm_num, Nat.pow_div hj4 (by omega)]
  have hc8 : cap / 8 = 2 ^ (j - 3) := by
    rw [hj, show (8 : Nat) = 2 ^ 3 by norm_num, Nat.pow_div (by omega) (by omega)]
  have hrel : (2 : Nat) ^ (j - 3) = 2 * 2 ^ (j - 4) := by
    rw [show j - 3 = (j - 4) + 1 by omega, pow_succ]
    ring
  have hx1 : 1 ≤ (2 : Nat) ^ (j - 4) := Nat.one_le_two_pow
  have hxlt : (2 : Nat) ^ (j - 4) < cap := by
    rw [hj]
    exact (Nat.pow_lt_pow_iff_right (by omega)).mpr (by omega)
  have hforward : newCapacity cap est minCap < cap → 16 * est ≤ cap ∧ minCap < cap := by
    intro hlt
    by_cases hC : (cap / 8) * 7 ≤ est
    · exfalso
      unfold newCapacity at hlt
      rw [if_pos hC] at hlt
      by_cases hcm : cap = maxCapacity
      · rw [if_pos hcm] at hlt
        omega
      · rw [if_neg hcm] at hlt
        have hge := le_growLoop ((est / 8) * 15) 70 cap cap
        omega
    · unfold newCapacity at hlt
      rw [if_neg hC] at hlt
      by_cases hS : est ≤ cap / 16
      · rw [if_pos hS] at hlt
        have h1 : est * 16 ≤ cap := (Nat.le_div_iff_mul_le (by omega)).mp hS
        have h2 : minCap ≤ max (nextPowerOfTwo est) minCap := le_max_right _ _
        omega
      · rw [if_neg hS] at hlt
        omega
  have hbackward : 16 * est ≤ cap ∧ minCap < cap →
      newCapacity cap est minCap = max (nextPowerOfTwo est) minCap ∧
      newCapacity cap est minCap < cap := by
    rintro ⟨h16e, hminlt⟩
    have hS : est ≤ cap / 16 := (Nat.le_div_iff_mul_le (by omega)).mpr (by omega)
    have hestx : est ≤ 2 ^ (j - 4) := by rw [← hc16]; exact hS
    have hnC : ¬ ((cap / 8) * 7 ≤ est) := by
      rw [hc8, hrel]
      omega
    have heq : newCapacity cap est minCap = max (nextPowerOfTwo est) minCap := by
      unfold newCapacity
      rw [if_neg hnC, if_pos hS]
    have hnpt : nextPowerOfTwo est ≤ 2 ^ (j - 4) :=
      nextPowerOfTwo_le_pow est (j - 4) hestx (by omega)
    refine ⟨heq, ?_⟩
    rw [heq]
    exact max_lt (by omega) hminlt
  constructor
  · constructor
    · exact hforward
    · intro hc
      exact (hbackward hc).2
  · intro hc
    exact (hbackward hc).1

/-- C6 witness: the shrink characterization evaluated at capacity 32,
estimate 2, minimum capacity 16. -/
theorem c6_shrink_iff_witness :
    (32 : Nat) = 2 ^ 5 ∧ (16 : Nat) ≤ 32 ∧ (32 : Nat) ≤ maxCapacity ∧
    (16 : Nat) ≤ 32 ∧
    ((newCapacity 32 2 16 < 32 ↔ 16 * 2 ≤ 32 ∧ 16 < 32) ∧
      (16 * 2 ≤ 32 ∧ 16 < 32 →
        newCapacity 32 2 16 = max (nextPowerOfTwo 2) 16)) :=
  ⟨by norm_num, by norm_num, by norm_num [maxCapacity], by norm_num,
    c6_shrink_iff 32 2 16 5 (by norm_num) (by norm_num)
      (by norm_num [maxCapacity]) (by norm_num)⟩

/-- C7 counterexample: with the preferred slot 0 occupied by another key and
slots 1..15 vacant, the first vacant slot in scan order is slot 1, but the
insert places the entry in slot 15: within the first array holding a
vacancy the loop keeps overwriting free_data_array_index, so the last
vacant index wins. -/
theorem c7_first_vacant_counterexample :
    (CellLocker.insert 99 (0 : Nat) 16 (Cell.defaultData Nat Nat)).2 = some [c7wa] ∧
    firstVacantPos [c7wa] 0 = some (0, 1) ∧
    (CellLocker.insert 7 (7 : Nat) 0 (some [c7wa])).1 = InsertResult.ok ∧
    (CellLocker.insert 7 (7 : Nat) 0 (some [c7wa])).2 ≠
      some (writeAt [c7wa] 0 1 (storedTag 0) (7, 7)) ∧
    (CellLocker.insert 7 (7 : Nat) 0 (some [c7wa])).2 =
      some (writeAt [c7wa] 0 15 (storedTag 0) (7, 7)) := by decide

/-- C7 (amended): when the preferred slot is taken and no slot of the chain
matches the key, CellLocker::insert succeeds and places the entry in the
first array of the chain (in scan order) that contains a vacant slot, at
the last vacant index within that array. -/
theorem c7_amended_vacant_choice {K V : Type} [DecidableEq K] (key : K)
    (value : V) (phash : Nat) (a0 : DataArray K V) (rest : List (DataArray K V))
    (hw : ∀ a ∈ a0 :: rest, a.slots.length = ARRAY_SIZE)
    (hpref : (a0.slots.getD (phash % 256 % ARRAY_SIZE) ⟨0, none⟩).tag ≠ 0)
    (hnm : noMatchChain key (hashTarget phash) (a0 :: rest))
    (ai idx : Nat) (hch : chosenVacantPos (a0 :: rest) 0 = some (ai, idx)) :
    CellLocker.insert key value phash (some (a0 :: rest)) =
      (InsertResult.ok,
        some (writeAt (a0 :: rest) ai idx (storedTag phash) (key, value))) := by
  have hscan := scanChain_none key (hashTarget phash) (hashTarget_ne_zero phash)
    (a0 :: rest) hnm hw 0
  rw [hch] at hscan
  simp only [CellLocker.insert]
  rw [if_neg hpref, hscan]

/-- C7 witness: the amended slot choice applied to a cell whose preferred
slot is occupied by another key, choosing the last vacant slot 15 of the
first array. -/
theorem c7_amended_vacant_choice_witness :
    (∀ a ∈ [c7wa], a.slots.length = ARRAY_SIZE) ∧
    (c7wa.slots.getD (0 % 256 % ARRAY_SIZE) ⟨0, none⟩).tag ≠ 0 ∧
    noMatchChain 7 (hashTarget 0) [c7wa] ∧
    chosenVacantPos [c7wa] 0 = some (0, 15) ∧
    CellLocker.insert 7 (7 : Nat) 0 (some [c7wa]) =
      (InsertResult.ok, some (writeAt [c7wa] 0 15 (storedTag 0) (7, 7))) :=
  ⟨by decide, by decide, by decide, by decide,
    c7_amended_vacant_choice 7 7 0 c7wa [] (by decide) (by decide) (by decide)
      0 15 (by decide)⟩

/-- C8: at most two directories coexist.  In the transition system generated
by resize installations (which refuse to install while a predecessor
exists) and rehash completions, every reachable directory chain has length
at most two and is nonempty, so a predecessor directory never has a
predecessor of its own. -/
theorem c8_at_most_two_directories (s : List Nat) (h : ReachableChain s) :
    s.length ≤ 2 ∧ 1 ≤ s.length := by
  induction h with
  | init c => simp
  | @resize n s2 h ih =>
    cases s2 with
    | nil => simp [resizeInstall]
    | cons a t =>
      by_cases ht : t = []
      · subst ht
        simp [resizeInstall]
      · have htail : (a :: t).tail = t := rfl
        rw [resizeInstall, if_neg (by simpa [htail] using ht)]
        exact ih
  | @rehash s2 h ih =>
    cases s2 with
    | nil => exact ih
    | cons a t =>
      cases t with
      | nil => exact ih
      | cons b u => simp [finishRehash]

/-- C8 witness: the chain obtained by one resize installation over a fresh
table is reachable and has length two. -/
theorem c8_at_most_two_directories_witness :
    ReachableChain [7, 3] ∧ ([7, 3] : List Nat).length ≤ 2 ∧
    1 ≤ ([7, 3] : List Nat).length := by
  have h0 : ReachableChain [3] := ReachableChain.init 3
  have h1 : ReachableChain (resizeInstall 7 [3]) := ReachableChain.resize 7 h0
  have h2 : ReachableChain [7, 3] := by simpa [resizeInstall] using h1
  exact ⟨h2, (c8_at_most_two_directories [7, 3] h2).1,
    (c8_at_most_two_directories [7, 3] h2).2⟩

/-- C10: inserting into a killed cell (null data pointer) always returns
Err((k, v)) and leaves the cell killed: it never resurrects the cell. -/
theorem c10_insert_into_killed_cell (K V : Type) [DecidableEq K] (key : K)
    (value : V) (phash : Nat) :
    CellLocker.insert key value phash (none : CellData K V) =
      (InsertResult.err (key, value), none) ∧
    Cell.killed (CellLocker.insert key value phash (none : CellData K V)).2 = true :=
  ⟨rfl, rfl⟩

/-- C10 witness: the killed-cell refusal evaluated at a concrete input. -/
theorem c10_insert_into_killed_cell_witness :
    CellLocker.insert 1 (2 : Nat) 3 (none : CellData Nat Nat) =
      (InsertResult.err (1, 2), none) ∧
    Cell.killed (CellLocker.insert 1 (2 : Nat) 3 (none : CellData Nat Nat)).2 = true :=
  c10_insert_into_killed_cell Nat Nat 1 2 3

end Scc
